import Mathlib

/-!
# Verification of the `tucan` value interner

A shallow embedding of the interner ("hash-consing" store) from
`src/lib.rs`, `src/concurrent.rs` and `src/singlethread.rs`.

The store maps a fingerprint (the 128-bit hash of a value, modelled as an
abstract key type `K` produced by a hash function parameter `hash : V → K`)
to a shared allocation (`Arc<T>` / `Rc<T>`).  We model allocations by
natural-number identifiers: pointer equality of two handles is equality of
their allocation ids.  The strong count of an allocation is, by the
semantics of `Arc`/`Rc`, the number of live clones of the pointer: one for
the table entry that stores it (if still present) plus one per live
external handle.  We therefore keep an explicit multiset of live external
handles and *derive* the strong count, exactly mirroring what
`Arc::strong_count` observes.

`mem` is a ghost heap recording every allocation ever created together with
its (immutable) stored value; an allocation is live precisely when its
derived strong count is positive.
-/

set_option autoImplicit false
set_option linter.unusedSectionVars false

namespace Tucan

/-- One interner store: `nextId` the next fresh allocation id, `mem` the
ghost heap `id ↦ stored value`, `table` the fingerprint table
`key ↦ allocation id` (the `HashMap`/`DashMap` of the source), and
`handles` the multiset of allocation ids held by live external handles. -/
structure St (K V : Type) where
  nextId : Nat
  mem : List (Nat × V)
  table : List (K × Nat)
  handles : List Nat
  deriving DecidableEq

variable {K V : Type} [DecidableEq K] [DecidableEq V]

/-- Key lookup in the fingerprint table (`map.get(&hash)`). -/
def lookupK (t : List (K × Nat)) (k : K) : Option Nat :=
  (t.find? (fun e => decide (e.1 = k))).map (fun e => e.2)

/-- The value stored in allocation `id` (dereferencing a handle). -/
def valueOf (s : St K V) (id : Nat) : Option V :=
  (s.mem.find? (fun e => decide (e.1 = id))).map (fun e => e.2)

/-- How many table entries hold a reference to allocation `id`. -/
def tableRefs (s : St K V) (id : Nat) : Nat :=
  (s.table.filter (fun e => decide (e.2 = id))).length

/-- Model of `Arc::strong_count` of allocation `id`: the table's references plus the
live external handles. -/
def strongCount (s : St K V) (id : Nat) : Nat :=
  tableRefs s id + s.handles.count id

/-- A freshly created interner (`Tucan::new`). -/
def emptySt : St K V := ⟨0, [], [], []⟩

/-- Model of `Tucan::intern` (the whole call is atomic in `lib.rs`, which holds the
`RwLock` write guard throughout, and in any single-threaded execution):
hash the value, return a clone of the existing allocation on a hit;
otherwise create a fresh allocation, insert it into the table and return
it.  On a miss the new allocation has strong count 2: the table's clone
plus the returned handle. -/
def internOp (hash : V → K) (s : St K V) (v : V) : St K V × Nat :=
  match lookupK s.table (hash v) with
  | some id => ({ s with handles := id :: s.handles }, id)
  | none =>
      let id := s.nextId
      ({ nextId := id + 1
         mem := (id, v) :: s.mem
         table := (hash v, id) :: s.table
         handles := id :: s.handles }, id)

/-- Model of `Tucan::gc`: `retain(|_, item| strong_count(item) > 1)`.  Removing an
entry drops the table's reference to it. -/
def gcOp (s : St K V) : St K V :=
  { s with table := s.table.filter (fun e => decide (1 < strongCount s e.2)) }

/-- Model of `clear`: unconditionally empty the table, dropping the table's
reference to every entry; handles and the heap are untouched. -/
def clearOp (s : St K V) : St K V := { s with table := [] }

/-- Model of `len`: number of table entries. -/
def lenOp (s : St K V) : Nat := s.table.length

/-- Model of `Clone for Interned`: a live handle is duplicated, adding one more
external reference to its allocation. -/
def cloneOp (s : St K V) (id : Nat) : St K V :=
  if id ∈ s.handles then { s with handles := id :: s.handles } else s

/-- Dropping a live handle: one external reference disappears. -/
def dropOp (s : St K V) (id : Nat) : St K V :=
  if id ∈ s.handles then { s with handles := s.handles.erase id } else s

/-- Store well-formedness, maintained by every operation:
table keys are unique, table entries reference pairwise distinct
allocations, the ghost heap binds each id once, every table entry's
allocation stores a value that hashes to the entry's key, every live
handle references an allocated id, and allocated ids are below `nextId`. -/
def Inv (hash : V → K) (s : St K V) : Prop :=
  (s.table.map (fun e => e.1)).Nodup ∧
  (s.table.map (fun e => e.2)).Nodup ∧
  (s.mem.map (fun e => e.1)).Nodup ∧
  (∀ e ∈ s.table, Option.map hash (valueOf s e.2) = some e.1) ∧
  (∀ id ∈ s.handles, id ∈ s.mem.map (fun e => e.1)) ∧
  (∀ e ∈ s.mem, e.1 < s.nextId)

/-- Every live handle's allocation is still referenced by a table entry.
This holds in every execution that never calls `clear` (interning puts the
allocation in the table, `gc` only evicts entries with no external
handles), and is exactly what `clear` destroys. -/
def HandlesInTable (s : St K V) : Prop :=
  ∀ id ∈ s.handles, ∃ e ∈ s.table, e.2 = id

/-- The identity fingerprint on naturals: a concrete injective instance of
the abstract 128-bit hash, used to evaluate the model on closed inputs. -/
def natHash : Nat → Nat := fun n => n

/-- A concrete store: 5 then 7 interned into a fresh store. -/
def wSt : St Nat Nat :=
  (internOp natHash (internOp natHash (emptySt : St Nat Nat) 5).1 7).1

/-- The `lib.rs` global registry key: the shared type-erased table is
keyed by the pair `(TypeId, u128)`, i.e. a type discriminator combined
with the structural fingerprint.  Values carry their type tag, and the
key's first component is exactly that tag. -/
def ghash (h : Nat → Nat) : Nat × Nat → Nat × Nat := fun v => (v.1, h v.2)

/-- A concrete global-registry store: values `(0, 5)` and `(1, 5)` —
different type tags, identical structural fingerprint — interned into a
fresh shared table. -/
def wGSt : St (Nat × Nat) (Nat × Nat) :=
  (internOp (ghash natHash)
    (internOp (ghash natHash) (emptySt : St (Nat × Nat) (Nat × Nat)) (0, 5)).1
    (1, 5)).1

/-- First atomic step of the `concurrent.rs` `Tucan::intern`:
`self.0.get(&hash)`.  `DashMap` locks a shard only for the duration of
this call; no lock is held between this lookup and a later insert. -/
def lookStep (hash : V → K) (s : St K V) (v : V) : Option Nat :=
  lookupK s.table (hash v)

/-- Second atomic step of the `concurrent.rs` miss path: `Arc::new(value)`
followed by `self.0.insert(hash, Arc::clone(&ptr))`.  `DashMap::insert`
replaces any existing entry for the key and drops the replaced `Arc`: the
old allocation loses its table reference but stays alive while external
handles still hold it. -/
def insertStep (hash : V → K) (s : St K V) (v : V) : St K V × Nat :=
  let k := hash v
  let id := s.nextId
  ({ nextId := id + 1
     mem := (id, v) :: s.mem
     table := (k, id) :: s.table.filter (fun e => decide (e.1 ≠ k))
     handles := id :: s.handles }, id)

/-- The borrow state of the `RefCell` guarding the single-threaded table:
no borrow, `n` outstanding shared borrows, or an outstanding mutable
borrow. -/
inductive Borrow : Type
  | free
  | reading (n : Nat)
  | writing
  deriving DecidableEq

/-- Model of `RefCell::borrow_mut`: succeeds only when no borrow is outstanding;
otherwise it panics with `BorrowMutError`. -/
def borrowMut (b : Borrow) : Bool := decide (b = Borrow.free)

/-- Model of `RefCell::borrow`: succeeds unless a mutable borrow is outstanding;
otherwise it panics with `BorrowError`. -/
def borrowOk (b : Borrow) : Bool := decide (b ≠ Borrow.writing)

/-- The `singlethread.rs` `Tucan::gc` called with an ambient outstanding
borrow `b` of the same table: `self.0.borrow_mut()` panics (modelled as
`Except.error`, producing no state) unless `b` is free; on success the
sweep runs atomically. -/
def gcR (b : Borrow) (s : St K V) : Except Unit (St K V) :=
  if borrowMut b then Except.ok (gcOp s) else Except.error ()

/-- The `singlethread.rs` `Tucan::clear` under an ambient borrow `b`. -/
def clearR (b : Borrow) (s : St K V) : Except Unit (St K V) :=
  if borrowMut b then Except.ok (clearOp s) else Except.error ()

/-- The `singlethread.rs` `Tucan::len` (and `is_empty`) under an ambient
borrow `b`: takes a shared borrow. -/
def lenR (b : Borrow) (s : St K V) : Except Unit Nat :=
  if borrowOk b then Except.ok (lenOp s) else Except.error ()

/-- The `singlethread.rs` `Tucan::intern` under an ambient borrow `b` (the
`intern_str` and `intern_slice` entry points take exactly the same borrow
sequence): a shared borrow for the lookup (panics if a mutable borrow is
outstanding); on a hit, return under that borrow; on a miss the shared
borrow is dropped first and `borrow_mut` is taken for the insert, which
panics if any ambient borrow is still outstanding. -/
def internR (hash : V → K) (b : Borrow) (s : St K V) (v : V) :
    Except Unit (St K V × Nat) :=
  if borrowOk b then
    match lookupK s.table (hash v) with
    | some id => Except.ok ({ s with handles := id :: s.handles }, id)
    | none =>
        if borrowMut b then Except.ok (internOp hash s v) else Except.error ()
  else Except.error ()

theorem lookupK_none_iff {t : List (K × Nat)} {k : K} :
    lookupK t k = none ↔ ∀ e ∈ t, e.1 ≠ k := by
  simp [lookupK, List.find?_eq_none]

theorem lookupK_some_mem {t : List (K × Nat)} {k : K} {id : Nat}
    (h : lookupK t k = some id) : (k, id) ∈ t := by
  unfold lookupK at h
  cases hf : t.find? (fun e => decide (e.1 = k)) with
  | none => rw [hf] at h; exact absurd h (by simp)
  | some e =>
      have he1 : e.1 = k := by simpa using List.find?_some hf
      have hem := List.mem_of_find?_eq_some hf
      rw [hf] at h
      have he2 : e.2 = id := by simpa using h
      have : e = (k, id) := by
        cases e with
        | mk a b => simp only at he1 he2; rw [he1, he2]
      rwa [this] at hem

theorem lookupK_cons_self {t : List (K × Nat)} {k : K} {id : Nat} :
    lookupK ((k, id) :: t) k = some id := by
  simp [lookupK, List.find?]

theorem valueOf_mem {s : St K V} {id : Nat} {v : V}
    (h : valueOf s id = some v) : (id, v) ∈ s.mem := by
  unfold valueOf at h
  cases hf : s.mem.find? (fun e => decide (e.1 = id)) with
  | none => rw [hf] at h; exact absurd h (by simp)
  | some e =>
      have he1 : e.1 = id := by simpa using List.find?_some hf
      have hem := List.mem_of_find?_eq_some hf
      rw [hf] at h
      have he2 : e.2 = v := by simpa using h
      have : e = (id, v) := by
        cases e with
        | mk a b => simp only at he1 he2; rw [he1, he2]
      rwa [this] at hem

theorem valueOf_isSome_of_mem_ids {s : St K V} {id : Nat}
    (h : id ∈ s.mem.map (fun e => e.1)) : ∃ v, valueOf s id = some v := by
  rcases List.mem_map.mp h with ⟨e, he, hid⟩
  unfold valueOf
  cases hf : s.mem.find? (fun e => decide (e.1 = id)) with
  | none =>
      rw [List.find?_eq_none] at hf
      exact absurd (by simpa using hid) (by simpa using hf e he)
  | some a => exact ⟨a.2, by simp⟩

/-- If a mapped list is duplicate-free then the map is injective on the
elements of the list. -/
theorem nodup_map_inj {α β : Type} (f : α → β) :
    ∀ {l : List α}, (l.map f).Nodup →
      ∀ {a b : α}, a ∈ l → b ∈ l → f a = f b → a = b := by
  intro l
  induction l with
  | nil => intro _ a b ha; exact absurd ha (List.not_mem_nil a)
  | cons x xs ih =>
      intro hnd a b ha hb hf
      rw [List.map_cons, List.nodup_cons] at hnd
      rcases List.mem_cons.mp ha with ha' | ha' <;>
        rcases List.mem_cons.mp hb with hb' | hb'
      · rw [ha', hb']
      · exact absurd (by rw [← ha', hf]; exact List.mem_map_of_mem f hb') hnd.1
      · exact absurd (by rw [← hb', ← hf]; exact List.mem_map_of_mem f ha') hnd.1
      · exact ih hnd.2 ha' hb' hf

/-- With duplicate-free table values, two entries holding the same
allocation are the same entry. -/
theorem table_entry_inj {s : St K V}
    (hnd : (s.table.map (fun e => e.2)).Nodup)
    {e1 e2 : K × Nat} (h1 : e1 ∈ s.table) (h2 : e2 ∈ s.table)
    (h : e1.2 = e2.2) : e1 = e2 :=
  nodup_map_inj (fun e => e.2) hnd h1 h2 h

/-- With duplicate-free ids, membership in the ghost heap determines
`valueOf`. -/
theorem valueOf_of_mem {s : St K V}
    (hnd : (s.mem.map (fun e => e.1)).Nodup)
    {id : Nat} {v : V} (h : (id, v) ∈ s.mem) : valueOf s id = some v := by
  unfold valueOf
  cases hf : s.mem.find? (fun e => decide (e.1 = id)) with
  | none =>
      rw [List.find?_eq_none] at hf
      have h2 := hf (id, v) h
      simp at h2
  | some e =>
      have he1 : e.1 = id := by simpa using List.find?_some hf
      have hem := List.mem_of_find?_eq_some hf
      have : e = (id, v) := nodup_map_inj (fun e => e.1) hnd hem h (by simpa using he1)
      rw [this]; simp

theorem tableRefs_eq_one {s : St K V}
    (hnd : (s.table.map (fun e => e.2)).Nodup)
    {k : K} {id : Nat} (h : (k, id) ∈ s.table) : tableRefs s id = 1 := by
  unfold tableRefs
  have hcount : (s.table.filter (fun e => decide (e.2 = id))).length
      = (s.table.map (fun e => e.2)).count id := by
    induction s.table with
    | nil => rfl
    | cons x xs ih =>
        by_cases hx : x.2 = id
        · simp [List.count_cons, hx, ih]
        · simp [List.count_cons, hx, ih]
  rw [hcount]
  have hmem : id ∈ s.table.map (fun e => e.2) := by
    exact List.mem_map.mpr ⟨(k, id), h, rfl⟩
  exact List.count_eq_one_of_mem hnd hmem

theorem tableRefs_pos {s : St K V} {k : K} {id : Nat}
    (h : (k, id) ∈ s.table) : 0 < tableRefs s id := by
  unfold tableRefs
  rw [List.length_pos]
  intro hnil
  have : (k, id) ∈ s.table.filter (fun e => decide (e.2 = id)) :=
    List.mem_filter.mpr ⟨h, by simp⟩
  rw [hnil] at this
  exact absurd this (List.not_mem_nil _)

theorem inv_table_mem_ids {hash : V → K} {s : St K V} (hInv : Inv hash s) :
    ∀ e ∈ s.table, e.2 ∈ s.mem.map (fun x => x.1) := by
  intro e he
  have h4 := hInv.2.2.2.1 e he
  rcases Option.map_eq_some'.mp h4 with ⟨w, hw, _⟩
  exact List.mem_map.mpr ⟨(e.2, w), valueOf_mem hw, rfl⟩

theorem inv_table_lt {hash : V → K} {s : St K V} (hInv : Inv hash s) :
    ∀ e ∈ s.table, e.2 < s.nextId := by
  intro e he
  rcases List.mem_map.mp (inv_table_mem_ids hInv e he) with ⟨x, hx, hid⟩
  exact hid ▸ hInv.2.2.2.2.2 x hx

/-- Both branches of `intern` push the returned id onto the live handles. -/
theorem intern_handles (hash : V → K) (s : St K V) (v : V) :
    (internOp hash s v).1.handles = (internOp hash s v).2 :: s.handles := by
  unfold internOp
  cases hl : lookupK s.table (hash v) <;> simp

/-- The operation `intern` never removes a table entry. -/
theorem intern_table_mono (hash : V → K) (s : St K V) (v : V) :
    ∀ e ∈ s.table, e ∈ (internOp hash s v).1.table := by
  intro e he
  unfold internOp
  cases hl : lookupK s.table (hash v) <;> simp [he]

/-- After `intern v`, the table has an entry for `hash v` holding the
returned allocation. -/
theorem intern_mem_table (hash : V → K) (s : St K V) (v : V) :
    (hash v, (internOp hash s v).2) ∈ (internOp hash s v).1.table := by
  unfold internOp
  cases hl : lookupK s.table (hash v) with
  | none => simp
  | some id => simpa using lookupK_some_mem hl

/-- The operation `intern` preserves the ghost heap entries. -/
theorem intern_mem_mono (hash : V → K) (s : St K V) (v : V) :
    ∀ e ∈ s.mem, e ∈ (internOp hash s v).1.mem := by
  intro e he
  unfold internOp
  cases hl : lookupK s.table (hash v) <;> simp [he]

/-- In the miss branch, `valueOf` is unchanged on every old allocation. -/
theorem valueOf_push {s : St K V} {v : V} {x : Nat} (hx : x ≠ s.nextId)
    {n : Nat} {t : List (K × Nat)} {hs : List Nat} :
    valueOf (⟨n, (s.nextId, v) :: s.mem, t, hs⟩ : St K V) x = valueOf s x := by
  unfold valueOf
  rw [List.find?_cons_of_neg]
  simpa using fun h => hx h.symm

/-- In the miss branch, the fresh allocation stores the interned value. -/
theorem valueOf_push_self {s : St K V} {v : V}
    {n : Nat} {t : List (K × Nat)} {hs : List Nat} :
    valueOf (⟨n, (s.nextId, v) :: s.mem, t, hs⟩ : St K V) s.nextId = some v := by
  unfold valueOf
  rw [List.find?_cons_of_pos] <;> simp

/-- The operation `intern` preserves the store invariant. -/
theorem inv_intern (hash : V → K) {s : St K V} (hInv : Inv hash s) (v : V) :
    Inv hash (internOp hash s v).1 := by
  obtain ⟨h1, h2, h3, h4, h5, h6⟩ := hInv
  unfold internOp
  cases hl : lookupK s.table (hash v) with
  | some id =>
      refine ⟨h1, h2, h3, h4, ?_, h6⟩
      intro x hx
      rcases List.mem_cons.mp hx with hx' | hx'
      · exact hx' ▸ inv_table_mem_ids ⟨h1, h2, h3, h4, h5, h6⟩ _ (lookupK_some_mem hl)
      · exact h5 x hx'
  | none =>
      have hnone := lookupK_none_iff.mp hl
      have hvlt : ∀ e ∈ s.table, e.2 < s.nextId :=
        inv_table_lt ⟨h1, h2, h3, h4, h5, h6⟩
      have hmlt : ∀ x ∈ s.mem.map (fun e => e.1), x < s.nextId := by
        intro x hx
        rcases List.mem_map.mp hx with ⟨e, he, hid⟩
        exact hid ▸ h6 e he
      refine ⟨?_, ?_, ?_, ?_, ?_, ?_⟩
      · simp only [List.map_cons, List.nodup_cons]
        refine ⟨?_, h1⟩
        intro hmem
        rcases List.mem_map.mp hmem with ⟨e, he, hk⟩
        exact hnone e he hk
      · simp only [List.map_cons, List.nodup_cons]
        refine ⟨?_, h2⟩
        intro hmem
        rcases List.mem_map.mp hmem with ⟨e, he, hk⟩
        exact absurd (hk ▸ hvlt e he) (lt_irrefl s.nextId)
      · simp only [List.map_cons, List.nodup_cons]
        refine ⟨?_, h3⟩
        intro hmem
        exact absurd (hmlt s.nextId hmem) (lt_irrefl s.nextId)
      · intro e he
        rcases List.mem_cons.mp he with he' | he'

        · rw [he']
          rw [show ((hash v, s.nextId) : K × Nat).2 = s.nextId from rfl]
          rw [valueOf_push_self]
          simp
        · have hne : e.2 ≠ s.nextId := fun h => absurd (h ▸ hvlt e he') (lt_irrefl _)
          rw [valueOf_push hne]
          exact h4 e he'
      · intro x hx
        rcases List.mem_cons.mp hx with hx' | hx'
        · simp [hx']
        · simp only [List.map_cons]
          exact List.mem_cons_of_mem _ (h5 x hx')
      · intro e he
        rcases List.mem_cons.mp he with he' | he'
        · rw [he']; exact Nat.lt_succ_self _
        · exact Nat.lt_succ_of_lt (h6 e he')

/-- The operation `gc` preserves the store invariant. -/
theorem inv_gc (hash : V → K) {s : St K V} (hInv : Inv hash s) :
    Inv hash (gcOp s) := by
  obtain ⟨h1, h2, h3, h4, h5, h6⟩ := hInv
  have hsub : (gcOp s).table.Sublist s.table := List.filter_sublist _
  refine ⟨?_, ?_, h3, ?_, h5, h6⟩
  · exact (hsub.map (fun e => e.1)).nodup h1
  · exact (hsub.map (fun e => e.2)).nodup h2
  · intro e he
    exact h4 e (hsub.mem he)

/-- The operation `clear` preserves the store invariant. -/
theorem inv_clear (hash : V → K) {s : St K V} (hInv : Inv hash s) :
    Inv hash (clearOp s) := by
  obtain ⟨h1, h2, h3, h4, h5, h6⟩ := hInv
  exact ⟨List.nodup_nil, List.nodup_nil, h3, by simp [clearOp], h5, h6⟩

/-- The operation `clone` preserves the store invariant. -/
theorem inv_clone (hash : V → K) {s : St K V} (hInv : Inv hash s) (id : Nat) :
    Inv hash (cloneOp s id) := by
  obtain ⟨h1, h2, h3, h4, h5, h6⟩ := hInv
  unfold cloneOp
  split
  · refine ⟨h1, h2, h3, h4, ?_, h6⟩
    intro x hx
    rcases List.mem_cons.mp hx with hx' | hx'
    · exact hx' ▸ h5 id (by assumption)
    · exact h5 x hx'
  · exact ⟨h1, h2, h3, h4, h5, h6⟩

/-- The operation `drop` preserves the store invariant. -/
theorem inv_drop (hash : V → K) {s : St K V} (hInv : Inv hash s) (id : Nat) :
    Inv hash (dropOp s id) := by
  obtain ⟨h1, h2, h3, h4, h5, h6⟩ := hInv
  unfold dropOp
  split
  · refine ⟨h1, h2, h3, h4, ?_, h6⟩
    intro x hx
    exact h5 x (List.mem_of_mem_erase hx)
  · exact ⟨h1, h2, h3, h4, h5, h6⟩

/-- The operation `intern` keeps every live handle's allocation in the table. -/
theorem hT_intern (hash : V → K) {s : St K V} (hT : HandlesInTable s) (v : V) :
    HandlesInTable (internOp hash s v).1 := by
  intro x hx
  rw [intern_handles] at hx
  rcases List.mem_cons.mp hx with hx' | hx'
  · exact ⟨(hash v, (internOp hash s v).2), intern_mem_table hash s v, hx'.symm⟩
  · rcases hT x hx' with ⟨e, he, hid⟩
    exact ⟨e, intern_table_mono hash s v e he, hid⟩

/-- The operation `gc` keeps every live handle's allocation in the table: an allocation
with a live external handle has strong count at least 2 (table reference
plus the handle), so its entry passes the retain test. -/
theorem hT_gc {s : St K V} (hT : HandlesInTable s) :
    HandlesInTable (gcOp s) := by
  intro x hx
  rcases hT x hx with ⟨e, he, hid⟩
  refine ⟨e, List.mem_filter.mpr ⟨he, ?_⟩, hid⟩
  have htr : 0 < tableRefs s x := tableRefs_pos (show (e.1, x) ∈ s.table by
    cases e with
    | mk a b => simp only at hid; rwa [hid] at he)
  have hc : 0 < s.handles.count x := List.count_pos_iff.mpr hx
  have : 1 < strongCount s x := by
    unfold strongCount
    omega
  simpa [hid] using this

/-- The operation `clone` keeps every live handle's allocation in the table. -/
theorem hT_clone {s : St K V} (hT : HandlesInTable s) (id : Nat) :
    HandlesInTable (cloneOp s id) := by
  unfold cloneOp
  split
  · intro x hx
    rcases List.mem_cons.mp hx with hx' | hx'
    · exact hx' ▸ hT id (by assumption)
    · exact hT x hx'
  · exact hT

/-- The operation `drop` keeps every live handle's allocation in the table. -/
theorem hT_drop {s : St K V} (hT : HandlesInTable s) (id : Nat) :
    HandlesInTable (dropOp s id) := by
  unfold dropOp
  split
  · intro x hx
    exact hT x (List.mem_of_mem_erase hx)
  · exact hT

/-- The handle returned by `intern v` dereferences to a value structurally
equal to `v`: immediately on a miss, and through the hash-key invariant
plus injectivity of the fingerprint on a hit. -/
theorem intern_valueOf (hash : V → K) (hinj : Function.Injective hash)
    {s : St K V} (hInv : Inv hash s) (v : V) :
    valueOf (internOp hash s v).1 (internOp hash s v).2 = some v := by
  unfold internOp
  cases hl : lookupK s.table (hash v) with
  | some id =>
      simp only
      have h4 := hInv.2.2.2.1 _ (lookupK_some_mem hl)
      rcases Option.map_eq_some'.mp h4 with ⟨w, hw, hwk⟩
      have : w = v := hinj hwk
      exact this ▸ hw
  | none =>
      simp only
      exact valueOf_push_self

/-- With duplicate-free keys, a table entry determines the lookup. -/
theorem lookupK_of_mem {t : List (K × Nat)} (hnd : (t.map (fun e => e.1)).Nodup)
    {k : K} {id : Nat} (h : (k, id) ∈ t) : lookupK t k = some id := by
  induction t with
  | nil => exact absurd h (List.not_mem_nil _)
  | cons x xs ih =>
      rw [List.map_cons, List.nodup_cons] at hnd
      by_cases hx : x.1 = k
      · have hxe : x = (k, x.2) := by
          cases x with
          | mk a b => simp only at hx; rw [hx]
        rcases List.mem_cons.mp h with h' | h'
        · rw [← h']
          simp [lookupK, List.find?_cons_of_pos, hx, h'.symm]
        · exact absurd (hx ▸ List.mem_map.mpr ⟨(k, id), h', rfl⟩) hnd.1
      · have h' : (k, id) ∈ xs := by
          rcases List.mem_cons.mp h with h'' | h''
          · exact absurd (congrArg (fun e => e.1) h''.symm) hx
          · exact h''
        have hres := ih hnd.2 h'
        unfold lookupK at hres ⊢
        rw [List.find?_cons_of_neg]
        · exact hres
        · simpa using hx

/-- C4.  GC liveness postcondition: an entry survives `gc` exactly when it
was present before and its allocation's strong count (as observed at the
moment of the sweep) exceeds 1; in particular every entry whose allocation
had strong count exactly 1 — only the table's own reference left — is
removed, and every entry with a live external handle is still present. -/
theorem C4_gc_postcondition (s : St K V) (e : K × Nat) :
    e ∈ (gcOp s).table ↔ e ∈ s.table ∧ 1 < strongCount s e.2 := by
  simp [gcOp, List.mem_filter]

/-- C10.  `gc` is idempotent: a second sweep immediately after a first one
(with no intern, clone or drop in between) removes nothing, because every
surviving entry has a strong count greater than 1 that the first sweep did
not change. -/
theorem C10_gc_idempotent (hash : V → K) {s : St K V} (hInv : Inv hash s) :
    gcOp (gcOp s) = gcOp s := by
  have h2 := hInv.2.1
  have h2' := (inv_gc hash hInv).2.1
  have key : ∀ e ∈ (gcOp s).table,
      decide (1 < strongCount (gcOp s) e.2) = true := by
    intro e he
    obtain ⟨k, id⟩ := e
    have he' : (k, id) ∈ s.table := (List.mem_filter.mp he).1
    have hpe : 1 < strongCount s id := by
      have := (List.mem_filter.mp he).2
      simpa using this
    have t1 : tableRefs s id = 1 := tableRefs_eq_one h2 he'
    have t2 : tableRefs (gcOp s) id = 1 := tableRefs_eq_one h2' he
    have hh : (gcOp s).handles = s.handles := rfl
    simp only [strongCount, t2, hh, decide_eq_true_eq]
    simp only [strongCount, t1] at hpe
    omega
  have htab : (gcOp s).table.filter
      (fun e => decide (1 < strongCount (gcOp s) e.2)) = (gcOp s).table :=
    List.filter_eq_self.mpr key
  show ({ s with table := ((gcOp s).table.filter
      (fun e => decide (1 < strongCount (gcOp s) e.2))) } : St K V) = gcOp s
  rw [htab]
  rfl

/-- Witness for C10 at a concrete store (5 and 7 interned, both handles
live). -/
theorem C10_witness :
    Inv natHash wSt ∧ gcOp (gcOp wSt) = gcOp wSt :=
  ⟨by unfold Inv; decide, C10_gc_idempotent natHash (by unfold Inv; decide)⟩

/-- C6.  `clear` empties the table unconditionally (`len` is 0 afterwards,
however many handles are outstanding), while every previously issued
handle survives: it is still live and still dereferences to the originally
interned value, because the handle's own reference is untouched. -/
theorem C6_clear_unconditional (hash : V → K) {s : St K V} (hInv : Inv hash s) :
    lenOp (clearOp s) = 0
  ∧ (clearOp s).handles = s.handles
  ∧ ∀ id ∈ s.handles,
      valueOf (clearOp s) id = valueOf s id ∧ ∃ v, valueOf s id = some v := by
  refine ⟨rfl, rfl, ?_⟩
  intro id hid
  exact ⟨rfl, valueOf_isSome_of_mem_ids (hInv.2.2.2.2.1 id hid)⟩

/-- Witness for C6 at a concrete store with two live handles. -/
theorem C6_witness :
    Inv natHash wSt ∧
      (lenOp (clearOp wSt) = 0
       ∧ (clearOp wSt).handles = wSt.handles
       ∧ ∀ id ∈ wSt.handles,
           valueOf (clearOp wSt) id = valueOf wSt id
           ∧ ∃ v, valueOf wSt id = some v) :=
  ⟨by unfold Inv; decide, C6_clear_unconditional natHash (by unfold Inv; decide)⟩

/-- C5.  Strong-count accounting: the count an interned handle reports is
the table's references (exactly 1 while the entry is present) plus the
number of live external handles; cloning a live handle adds exactly 1,
dropping one subtracts exactly 1 and the count stays non-negative (it is
at least 1 while a handle is live); interning the same value twice into a
fresh store leaves the shared allocation at count 3. -/
theorem C5_strong_count (hash : V → K) {s : St K V} (hInv : Inv hash s)
    {id : Nat} (hid : id ∈ s.handles) :
    strongCount s id = tableRefs s id + s.handles.count id
  ∧ (∀ k, (k, id) ∈ s.table → tableRefs s id = 1)
  ∧ strongCount (cloneOp s id) id = strongCount s id + 1
  ∧ 1 ≤ strongCount s id
  ∧ strongCount (dropOp s id) id + 1 = strongCount s id
  ∧ ∀ x : V, strongCount
      (internOp hash (internOp hash (emptySt : St K V) x).1 x).1
      ((internOp hash (emptySt : St K V) x).2) = 3 := by
  have hpos : 0 < s.handles.count id := List.count_pos_iff.mpr hid
  refine ⟨rfl, fun k h => tableRefs_eq_one hInv.2.1 h, ?_, ?_, ?_, ?_⟩
  · unfold cloneOp
    rw [if_pos hid]
    show tableRefs s id + ((id :: s.handles).count id)
      = tableRefs s id + s.handles.count id + 1
    rw [List.count_cons_self]
    omega
  · show 1 ≤ tableRefs s id + s.handles.count id
    omega
  · unfold dropOp
    rw [if_pos hid]
    show tableRefs s id + ((s.handles.erase id).count id) + 1
      = tableRefs s id + s.handles.count id
    rw [List.count_erase_self]
    omega
  · intro x
    simp [internOp, emptySt, lookupK, strongCount, tableRefs, List.count_cons]

/-- Witness for C5 at a concrete store with a live handle. -/
theorem C5_witness :
    (Inv natHash wSt ∧ 0 ∈ wSt.handles) ∧
    (strongCount wSt 0 = tableRefs wSt 0 + wSt.handles.count 0
     ∧ (∀ k, (k, 0) ∈ wSt.table → tableRefs wSt 0 = 1)
     ∧ strongCount (cloneOp wSt 0) 0 = strongCount wSt 0 + 1
     ∧ 1 ≤ strongCount wSt 0
     ∧ strongCount (dropOp wSt 0) 0 + 1 = strongCount wSt 0
     ∧ ∀ x : Nat, strongCount
         (internOp natHash (internOp natHash (emptySt : St Nat Nat) x).1 x).1
         ((internOp natHash (emptySt : St Nat Nat) x).2) = 3) :=
  ⟨⟨by unfold Inv; decide, by decide⟩,
   C5_strong_count natHash (by unfold Inv; decide) (by decide)⟩

/-- A fingerprint hit makes `intern` return a clone of the existing
allocation without touching the table or the heap. -/
theorem intern_hit {hash : V → K} {s : St K V} {v : V} {id : Nat}
    (h : lookupK s.table (hash v) = some id) :
    internOp hash s v = ({ s with handles := id :: s.handles }, id) := by
  unfold internOp
  rw [h]

/-- C2.  Determinism of interning: interning the same value twice in the
same store returns the same allocation both times, and both handles
dereference to a value structurally equal to the raw input, so each
compares equal to it under the handle-versus-value equality. -/
theorem C2_determinism (hash : V → K) (hinj : Function.Injective hash)
    {s : St K V} (hInv : Inv hash s) (x : V) :
    (internOp hash (internOp hash s x).1 x).2 = (internOp hash s x).2
  ∧ valueOf (internOp hash (internOp hash s x).1 x).1
      ((internOp hash (internOp hash s x).1 x).2) = some x
  ∧ valueOf (internOp hash (internOp hash s x).1 x).1
      ((internOp hash s x).2) = some x := by
  have inv1 := inv_intern hash hInv x
  have hl := lookupK_of_mem inv1.1 (intern_mem_table hash s x)
  rw [intern_hit hl]
  exact ⟨rfl, intern_valueOf hash hinj hInv x, intern_valueOf hash hinj hInv x⟩

/-- Witness for C2: interning 5 twice into a fresh store. -/
theorem C2_witness :
    (Function.Injective natHash ∧ Inv natHash (emptySt : St Nat Nat)) ∧
    ((internOp natHash (internOp natHash (emptySt : St Nat Nat) 5).1 5).2
        = (internOp natHash (emptySt : St Nat Nat) 5).2
     ∧ valueOf (internOp natHash (internOp natHash (emptySt : St Nat Nat) 5).1 5).1
         ((internOp natHash (internOp natHash (emptySt : St Nat Nat) 5).1 5).2) = some 5
     ∧ valueOf (internOp natHash (internOp natHash (emptySt : St Nat Nat) 5).1 5).1
         ((internOp natHash (emptySt : St Nat Nat) 5).2) = some 5) :=
  ⟨⟨fun a b h => h, by unfold Inv; decide⟩,
   C2_determinism natHash (fun a b h => h) (by unfold Inv; decide) 5⟩

/-- Two consecutive interns whose fingerprints differ return distinct
allocations: both end up with a table entry under their own key, and
distinct entries never share an allocation. -/
theorem intern_intern_ne (hash : V → K) {s : St K V} (hInv : Inv hash s)
    {x y : V} (hk : hash x ≠ hash y) :
    (internOp hash s x).2 ≠ (internOp hash (internOp hash s x).1 y).2 := by
  have inv1 := inv_intern hash hInv x
  have inv2 := inv_intern hash inv1 y
  have hax : (hash x, (internOp hash s x).2)
      ∈ (internOp hash (internOp hash s x).1 y).1.table :=
    intern_table_mono hash (internOp hash s x).1 y _ (intern_mem_table hash s x)
  have hby := intern_mem_table hash (internOp hash s x).1 y
  intro hab
  have heq := table_entry_inj inv2.2.1 hax hby (by simpa using hab)
  exact hk (by simpa using congrArg (fun e => e.1) heq)

/-- C3.  Distinctness: with the fingerprint treated as an abstract
injective (collision-free) hash — which is how the implementation trusts
it, performing no structural re-check on a hit — interning two
structurally unequal values yields handles to distinct allocations, which
therefore compare unequal. -/
theorem C3_distinctness (hash : V → K) (hinj : Function.Injective hash)
    {s : St K V} (hInv : Inv hash s) {x y : V} (hxy : x ≠ y) :
    (internOp hash s x).2 ≠ (internOp hash (internOp hash s x).1 y).2 :=
  intern_intern_ne hash hInv (fun h => hxy (hinj h))

/-- Witness for C3: interning 5 then 7 into a fresh store yields
allocations 0 and 1. -/
theorem C3_witness :
    (Function.Injective natHash ∧ Inv natHash (emptySt : St Nat Nat)
      ∧ (5 : Nat) ≠ 7) ∧
    (internOp natHash (emptySt : St Nat Nat) 5).2
      ≠ (internOp natHash (internOp natHash (emptySt : St Nat Nat) 5).1 7).2 :=
  ⟨⟨fun a b h => h, by unfold Inv; decide, by decide⟩,
   C3_distinctness natHash (fun a b h => h) (by unfold Inv; decide) (by decide)⟩

/-- C1, counterexample to the claim as stated: intern 5, `clear`, intern 5
again.  Both handles are live handles obtained from the same store, both
wrapped the structurally equal value 5 at their time of interning, yet
they reference distinct allocations (ids 0 and 1) and so compare unequal
under the identity-based handle equality.  The uniqueness invariant is
therefore not unconditional: `clear` breaks it. -/
theorem C1_counterexample :
    (internOp natHash (emptySt : St Nat Nat) 5).2
        ∈ (internOp natHash (clearOp (internOp natHash (emptySt : St Nat Nat) 5).1) 5).1.handles
  ∧ (internOp natHash (clearOp (internOp natHash (emptySt : St Nat Nat) 5).1) 5).2
        ∈ (internOp natHash (clearOp (internOp natHash (emptySt : St Nat Nat) 5).1) 5).1.handles
  ∧ valueOf (internOp natHash (clearOp (internOp natHash (emptySt : St Nat Nat) 5).1) 5).1
        ((internOp natHash (emptySt : St Nat Nat) 5).2) = some 5
  ∧ valueOf (internOp natHash (clearOp (internOp natHash (emptySt : St Nat Nat) 5).1) 5).1
        ((internOp natHash (clearOp (internOp natHash (emptySt : St Nat Nat) 5).1) 5).2) = some 5
  ∧ (internOp natHash (emptySt : St Nat Nat) 5).2
        ≠ (internOp natHash (clearOp (internOp natHash (emptySt : St Nat Nat) 5).1) 5).2 := by
  decide

/-- C1, amended: in every execution that never calls `clear` — i.e. in
any store satisfying the well-formedness invariant together with
"every live handle's allocation is still in the table", both of which
`intern`, `gc`, `clone` and `drop` preserve — two live handles of the
same store compare equal (reference the same allocation) exactly when the
values they wrapped at interning time are structurally equal. -/
theorem C1_store_uniqueness (hash : V → K)
    {s : St K V} (hInv : Inv hash s) (hT : HandlesInTable s) :
    (∀ v, Inv hash (internOp hash s v).1 ∧ HandlesInTable (internOp hash s v).1)
  ∧ (Inv hash (gcOp s) ∧ HandlesInTable (gcOp s))
  ∧ (∀ id, Inv hash (cloneOp s id) ∧ HandlesInTable (cloneOp s id))
  ∧ (∀ id, Inv hash (dropOp s id) ∧ HandlesInTable (dropOp s id))
  ∧ ∀ a ∈ s.handles, ∀ b ∈ s.handles, ∀ va vb : V,
      valueOf s a = some va → valueOf s b = some vb → (a = b ↔ va = vb) := by
  refine ⟨fun v => ⟨inv_intern hash hInv v, hT_intern hash hT v⟩,
    ⟨inv_gc hash hInv, hT_gc hT⟩,
    fun id => ⟨inv_clone hash hInv id, hT_clone hT id⟩,
    fun id => ⟨inv_drop hash hInv id, hT_drop hT id⟩, ?_⟩
  intro a ha b hb va vb hva hvb
  constructor
  · intro hab
    rw [hab] at hva
    rw [hva] at hvb
    exact Option.some_inj.mp hvb
  · intro hv
    rcases hT a ha with ⟨e1, he1, hid1⟩
    rcases hT b hb with ⟨e2, he2, hid2⟩
    have hk1 : hash va = e1.1 := by
      have hmap := hInv.2.2.2.1 e1 he1
      rw [hid1, hva] at hmap
      simpa using hmap
    have hk2 : hash vb = e2.1 := by
      have hmap := hInv.2.2.2.1 e2 he2
      rw [hid2, hvb] at hmap
      simpa using hmap
    have hkeq : e1.1 = e2.1 := by rw [← hk1, ← hk2, hv]
    have hee : e1 = e2 := nodup_map_inj (fun e => e.1) hInv.1 he1 he2 hkeq
    rw [← hid1, ← hid2, hee]

/-- Witness for the amended C1 at a concrete clear-free store (5 and 7
interned, both handles live). -/
theorem C1_witness :
    (Inv natHash wSt ∧ HandlesInTable wSt ∧ 0 ∈ wSt.handles ∧ 1 ∈ wSt.handles
      ∧ valueOf wSt 0 = some 5 ∧ valueOf wSt 1 = some 7) ∧
    ((0 : Nat) = 1 ↔ (5 : Nat) = 7) :=
  ⟨⟨by unfold Inv; decide, by unfold HandlesInTable; decide, by decide,
     by decide, by decide, by decide⟩,
   (@C1_store_uniqueness Nat Nat _ _ natHash wSt (by unfold Inv; decide)
      (by unfold HandlesInTable; decide)).2.2.2.2
     0 (by decide) 1 (by decide) 5 7 (by decide) (by decide)⟩

/-- C8.  Type partitioning in the global type-erased registry: the shared
table is keyed by (type discriminator, fingerprint), so entries whose type
tags differ are distinct entries referencing distinct allocations, and
interning two values of different types never yields aliasing handles —
even when their structural fingerprints coincide (the payload hash `h` is
arbitrary here, not assumed injective). -/
theorem C8_type_partitioning (h : Nat → Nat) {s : St (Nat × Nat) (Nat × Nat)}
    (hInv : Inv (ghash h) s) {t1 t2 : Nat} (ht : t1 ≠ t2) :
    (∀ e1 ∈ s.table, ∀ e2 ∈ s.table, e1.1.1 = t1 → e2.1.1 = t2 → e1.2 ≠ e2.2)
  ∧ ∀ w1 w2 : Nat,
      (internOp (ghash h) s (t1, w1)).2
        ≠ (internOp (ghash h) (internOp (ghash h) s (t1, w1)).1 (t2, w2)).2 := by
  constructor
  · intro e1 he1 e2 he2 ht1 ht2 hne
    have hee := table_entry_inj hInv.2.1 he1 he2 hne
    exact ht (by rw [← ht1, ← ht2, hee])
  · intro w1 w2
    refine intern_intern_ne (ghash h) hInv ?_
    intro hk
    exact ht (by simpa [ghash] using congrArg (fun p => p.1) hk)

/-- Witness for C8 at a concrete shared table holding `(0, 5)` and
`(1, 5)`: same structural fingerprint, different type tags. -/
theorem C8_witness :
    (Inv (ghash natHash) wGSt ∧ (0 : Nat) ≠ 1) ∧
    ((∀ e1 ∈ wGSt.table, ∀ e2 ∈ wGSt.table, e1.1.1 = 0 → e2.1.1 = 1 → e1.2 ≠ e2.2)
     ∧ ∀ w1 w2 : Nat,
         (internOp (ghash natHash) wGSt (0, w1)).2
           ≠ (internOp (ghash natHash) (internOp (ghash natHash) wGSt (0, w1)).1 (1, w2)).2) :=
  ⟨⟨by unfold Inv; decide, by decide⟩,
   C8_type_partitioning natHash (by unfold Inv; decide) (by decide)⟩

/-- C7, exhibit of the claim's violation: the interleaving in which two
threads race `intern` on the same fingerprint, both `DashMap::get` calls
miss (no lock is held between `get` and `insert`), and then both threads
run the miss path.  One insertion wins the table, but the two calls return
handles to two distinct live allocations of the same value: the loser's
allocation survives, orphaned, behind its returned handle.  The single
resulting table entry coexists with two live allocations for one
fingerprint, and the two returned handles compare unequal. -/
theorem C7_race_duplicate :
    lookStep natHash (emptySt : St Nat Nat) 5 = none
  ∧ (insertStep natHash (emptySt : St Nat Nat) 5).2
      ≠ (insertStep natHash (insertStep natHash (emptySt : St Nat Nat) 5).1 5).2
  ∧ valueOf (insertStep natHash (insertStep natHash (emptySt : St Nat Nat) 5).1 5).1
      ((insertStep natHash (emptySt : St Nat Nat) 5).2) = some 5
  ∧ valueOf (insertStep natHash (insertStep natHash (emptySt : St Nat Nat) 5).1 5).1
      ((insertStep natHash (insertStep natHash (emptySt : St Nat Nat) 5).1 5).2) = some 5
  ∧ 0 < strongCount (insertStep natHash (insertStep natHash (emptySt : St Nat Nat) 5).1 5).1
      ((insertStep natHash (emptySt : St Nat Nat) 5).2)
  ∧ 0 < strongCount (insertStep natHash (insertStep natHash (emptySt : St Nat Nat) 5).1 5).1
      ((insertStep natHash (insertStep natHash (emptySt : St Nat Nat) 5).1 5).2)
  ∧ lenOp (insertStep natHash (insertStep natHash (emptySt : St Nat Nat) 5).1 5).1 = 1 := by
  decide

/-- C9.  Single-threaded reentrancy safety: with any borrow of the
`RefCell`-guarded table outstanding, the mutating operations (`gc`,
`clear`, and the insert phase of a missing `intern`) abort with a
`BorrowMutError` panic instead of touching the table; and every operation
either aborts that way or returns exactly the uncorrupted atomic result —
no interleaving of the borrows silently corrupts state. -/
theorem C9_reentrancy (hash : V → K) (b : Borrow) (s : St K V) (v : V)
    (hb : b ≠ Borrow.free) :
    gcR b s = Except.error ()
  ∧ clearR b s = Except.error ()
  ∧ (lookupK s.table (hash v) = none → internR hash b s v = Except.error ())
  ∧ (internR hash b s v = Except.error ()
      ∨ internR hash b s v = Except.ok (internOp hash s v))
  ∧ (lenR b s = Except.error () ∨ lenR b s = Except.ok (lenOp s)) := by
  refine ⟨?_, ?_, ?_, ?_, ?_⟩
  · unfold gcR borrowMut
    rw [if_neg (by simpa using hb)]
  · unfold clearR borrowMut
    rw [if_neg (by simpa using hb)]
  · intro hl
    by_cases hw : b = Borrow.writing
    · simp [internR, borrowOk, hw]
    · simp [internR, borrowOk, borrowMut, hw, hb, hl]
  · by_cases hw : borrowOk b = true
    · cases hl : lookupK s.table (hash v) with
      | some id =>
          right
          simp [internR, hw, hl, intern_hit hl]
      | none =>
          by_cases hm : borrowMut b = true
          · right; simp [internR, hw, hl, hm]
          · left; simp [internR, hw, hl, hm]
    · left; simp [internR, hw]
  · by_cases hw : borrowOk b = true
    · right; simp [lenR, hw]
    · left; simp [lenR, hw]

/-- Witness for C9: a mutable borrow outstanding on a concrete store. -/
theorem C9_witness :
    Borrow.writing ≠ Borrow.free ∧
    (gcR Borrow.writing wSt = Except.error ()
     ∧ clearR Borrow.writing wSt = Except.error ()
     ∧ (lookupK wSt.table (natHash 9) = none →
          internR natHash Borrow.writing wSt 9 = Except.error ())
     ∧ (internR natHash Borrow.writing wSt 9 = Except.error ()
         ∨ internR natHash Borrow.writing wSt 9 = Except.ok (internOp natHash wSt 9))
     ∧ (lenR Borrow.writing wSt = Except.error ()
         ∨ lenR Borrow.writing wSt = Except.ok (lenOp wSt))) :=
  ⟨by decide, C9_reentrancy natHash Borrow.writing wSt 9 (by decide)⟩

end Tucan
